import Mathlib

/-!
# Verification of the hrdl patch-grouping and patient-level evaluation code

This file gives a shallow embedding, in Lean 4, of the core dictionary/list
bookkeeping of the hrdl repository:

* `src/data_stuff/NEW_patch_dataset.py` — `PatchDataset.group_dataset`,
  `PatchDataset.__len__`, `get_img_samples_score_dict`;
* `src/data_stuff/downstream_dataset.py` —
  `DownstreamTrainingDataset.__create_index_mapping__`;
* `src/callback_stuff/PatientLevelValidation.py` — the batch-end expansion,
  `update_dicts` and `score_dict`;
* `src/model_stuff/MyResNet.py` — `validation_step` / `get_preds` outputs;
* `make_ROC_1outneuron.py` — `get_roc_image_level`, the checkpoint band
  statistics of `make_roc_main`, and the stage ordering of the scripts.

Python dicts are modelled as insertion-ordered association lists, tensors as
lists (of lists) of elements of a linear ordered field, `None`-able tensor
slots as `Option`, and code that can raise as `Except Unit`.
-/

/-- Image / patient identifiers (folder names in the dataset layout). -/
abbrev ImgId := String

/-- Patch file paths. -/
abbrev PatchPath := String

/-- Class labels are indices produced by `class_to_idx`. -/
abbrev Label := ℕ

section Grouping

variable {π : Type}

/-- One round of `zip_longest(*(iter(l),) * g)`: the successive tuples are the
`g`-element blocks of `l`, the last block padded with `None` up to length `g`.
`chunkPad` returns that list of padded tuples (entries wrapped in `Option`,
`none` standing for Python's `None`). -/
def chunkPad (g : ℕ) : List π → List (List (Option π))
  | [] => []
  | x :: xs =>
    if _hg : g = 0 then []
    else (List.map some ((x :: xs).take g) ++
            List.replicate (g - ((x :: xs).take g).length) none) ::
          chunkPad g ((x :: xs).drop g)
termination_by l => l.length
decreasing_by
  simp only [List.length_drop, List.length_cons]
  omega

theorem chunkPad_nil (g : ℕ) : chunkPad g ([] : List π) = [] := by
  rw [chunkPad]

theorem chunkPad_cons (g : ℕ) (l : List π) (hg : g ≠ 0) (hl : l ≠ []) :
    chunkPad g l = (List.map some (l.take g) ++
      List.replicate (g - (l.take g).length) none) :: chunkPad g (l.drop g) := by
  obtain ⟨x, xs, rfl⟩ := List.exists_cons_of_ne_nil hl
  rw [chunkPad]
  rw [dif_neg hg]

/-- The `if None not in image_list` filter of `group_dataset` (and of
`__create_index_mapping__`): keep a padded tuple only when it has no `None`,
in which case the tuple is the list of its (unwrapped) elements. -/
def keepFull (c : List (Option π)) : Option (List π) :=
  if c.all Option.isSome then some c.reduceOption else none

/-- The groups that `PatchDataset.group_dataset` produces for one image's
patch list: `zip_longest` grouping followed by the `None` filter. -/
def groupEntry (g : ℕ) (l : List π) : List (List π) :=
  (chunkPad g l).filterMap keepFull

theorem keepFull_map_some (xs : List π) :
    keepFull (List.map some xs) = some xs := by
  unfold keepFull
  have hall : (List.map some xs).all Option.isSome = true := by
    simp [List.all_eq_true]
  rw [if_pos hall]
  congr 1
  induction xs with
  | nil => rfl
  | cons x xs ih => simp [List.reduceOption_cons_of_some, ih]

theorem keepFull_has_none (c : List (Option π)) (hc : (none : Option π) ∈ c) :
    keepFull c = none := by
  unfold keepFull
  have : c.all Option.isSome = false := by
    rw [List.all_eq_false]
    exact ⟨none, hc, by simp⟩
  rw [this]
  simp

theorem groupEntry_nil (g : ℕ) : groupEntry g ([] : List π) = [] := by
  simp [groupEntry, chunkPad_nil]

theorem groupEntry_small (g : ℕ) (l : List π) (hg : 0 < g)
    (h : l.length < g) : groupEntry g l = [] := by
  rcases eq_or_ne l [] with rfl | hl
  · exact groupEntry_nil g
  · have hg0 : g ≠ 0 := Nat.pos_iff_ne_zero.mp hg
    rw [groupEntry, chunkPad_cons g l hg0 hl]
    have hdrop : l.drop g = [] := List.drop_eq_nil_of_le (le_of_lt h)
    rw [hdrop, chunkPad_nil]
    have htake : (l.take g).length = l.length := by
      rw [List.length_take]
      omega
    have hrep : 0 < g - (l.take g).length := by omega
    have hmem : (none : Option π) ∈
        List.map some (l.take g) ++ List.replicate (g - (l.take g).length) none := by
      apply List.mem_append_right
      exact List.mem_replicate.mpr ⟨Nat.pos_iff_ne_zero.mp hrep, rfl⟩
    rw [List.filterMap_cons, keepFull_has_none _ hmem, List.filterMap_nil]

theorem groupEntry_big (g : ℕ) (l : List π) (hg : 0 < g)
    (h : g ≤ l.length) : groupEntry g l = l.take g :: groupEntry g (l.drop g) := by
  have hl : l ≠ [] := by
    intro heq
    rw [heq] at h
    simp at h
    omega
  have hg0 : g ≠ 0 := Nat.pos_iff_ne_zero.mp hg
  rw [groupEntry, chunkPad_cons g l hg0 hl]
  have htake : (l.take g).length = g := by
    rw [List.length_take]
    omega
  rw [htake, Nat.sub_self, List.replicate_zero, List.append_nil]
  rw [List.filterMap_cons, keepFull_map_some]
  rfl

/-- Main structural facts about `groupEntry`, by strong induction on the
length of the patch list: there are exactly `⌊n/g⌋` groups, their
concatenation is the length-`g⌊n/g⌋` prefix of the patch list, and every
group has exactly `g` entries, all from the patch list. -/
theorem groupEntry_facts (g : ℕ) (hg : 0 < g) :
    ∀ n (l : List π), l.length = n →
      (groupEntry g l).length = l.length / g ∧
      (groupEntry g l).flatten = l.take (g * (l.length / g)) ∧
      (∀ c ∈ groupEntry g l, c.length = g ∧ ∀ p ∈ c, p ∈ l) := by
  intro n
  induction n using Nat.strong_induction_on with
  | _ n ih =>
    intro l hl
    by_cases h : l.length < g
    · rw [groupEntry_small g l hg h]
      have hdiv : l.length / g = 0 := Nat.div_eq_of_lt h
      refine ⟨by simp [hdiv], by simp [hdiv], by simp⟩
    · push_neg at h
      have hlen : (l.drop g).length < n := by
        rw [List.length_drop]
        omega
      obtain ⟨ih1, ih2, ih3⟩ := ih (l.drop g).length hlen (l.drop g) rfl
      rw [groupEntry_big g l hg h]
      have hdd : (l.drop g).length = l.length - g := List.length_drop g l
      have hdiv : l.length / g = (l.length - g) / g + 1 := by
        rw [Nat.div_eq_sub_div hg h]
      constructor
      · simp only [List.length_cons, ih1, hdd, hdiv]
      constructor
      · rw [List.flatten_cons, ih2, hdd, hdiv]
        have harg : g * ((l.length - g) / g + 1) = g + g * ((l.length - g) / g) := by
          ring
        rw [harg, List.take_add]
      · intro c hc
        rcases List.mem_cons.mp hc with rfl | hc'
        · refine ⟨by rw [List.length_take]; omega, fun p hp => List.take_subset g l hp⟩
        · obtain ⟨h1, h2⟩ := ih3 c hc'
          exact ⟨h1, fun p hp => List.drop_subset g l (h2 p hp)⟩

end Grouping

/-- Model of `PatchDataset.group_dataset`: for each `image_id` of the dataset dict the
patch list is split by `zip_longest` into tuples of size `group_size`, tuples
containing `None` are discarded, and every kept tuple becomes the sample
`(image_id, ",".join(image_list), label)`.  The dataset dict is an
insertion-ordered association list `image_id ↦ (patch paths, label)`. -/
def group_dataset (dd : List (ImgId × List PatchPath × Label)) (g : ℕ) :
    List (ImgId × String × Label) :=
  dd.flatMap (fun e => (groupEntry g e.2.1).map
    (fun c => (e.1, String.intercalate "," c, e.2.2)))

/-- C4: with group size `g ≥ 1`, an image with `n` patches yields exactly
`⌊n/g⌋` samples, each sample being a tuple of exactly `g` of that image's
patches; the kept tuples concatenate to the length-`g⌊n/g⌋` prefix of the
patch list, so the trailing `n mod g` patches appear in no sample; and the
dataset length (`PatchDataset.__len__`) is the sum of `⌊n_i/g⌋` over images. -/
theorem grouped_dataset_counts_C4 (dd : List (ImgId × List PatchPath × Label))
    (g : ℕ) (hg : 1 ≤ g) :
    (∀ e ∈ dd,
      (groupEntry g e.2.1).length = e.2.1.length / g ∧
      (∀ c ∈ groupEntry g e.2.1, c.length = g ∧ ∀ p ∈ c, p ∈ e.2.1) ∧
      (groupEntry g e.2.1).flatten = e.2.1.take (g * (e.2.1.length / g)) ∧
      (e.2.1.Nodup → ∀ p ∈ e.2.1.drop (g * (e.2.1.length / g)),
        ∀ c ∈ groupEntry g e.2.1, p ∉ c)) ∧
    (group_dataset dd g).length = (dd.map (fun e => e.2.1.length / g)).sum := by
  have hg0 : 0 < g := hg
  constructor
  · intro e _he
    obtain ⟨h1, h2, h3⟩ := groupEntry_facts g hg0 e.2.1.length e.2.1 rfl
    refine ⟨h1, h3, h2, ?_⟩
    intro hnd p hpdrop c hc hpc
    have hpflat : p ∈ (groupEntry g e.2.1).flatten :=
      List.mem_flatten.mpr ⟨c, hc, hpc⟩
    rw [h2] at hpflat
    have hnd2 : (e.2.1.take (g * (e.2.1.length / g)) ++
        e.2.1.drop (g * (e.2.1.length / g))).Nodup := by
      rw [List.take_append_drop]
      exact hnd
    exact List.disjoint_of_nodup_append hnd2 hpflat hpdrop
  · rw [group_dataset, List.length_flatMap]
    congr 1
    apply List.map_congr_left
    intro e he
    simp only [Function.comp_apply, List.length_map]
    exact (groupEntry_facts g hg0 e.2.1.length e.2.1 rfl).1

section DownstreamGrouping

variable {π : Type}

/-- The `zip_longest` grouping of `DownstreamTrainingDataset.__create_index_mapping__`,
modelled positionally: tuple `i` holds the entries of the (shuffled) patch
list at positions `g*i + j` for `j < g`, a missing position giving `None`,
and there are `⌈n/g⌉` tuples; tuples containing a `None` are discarded. -/
def downstreamGroups (g : ℕ) (l : List π) : List (List π) :=
  ((List.range ((l.length + g - 1) / g)).map
    (fun i => (List.range g).map (fun j => l[g * i + j]?))).filterMap keepFull

theorem range_map_getElem_eq_take (g : ℕ) (l : List π) (h : g ≤ l.length) :
    (List.range g).map (fun j => l[j]?) = List.map some (l.take g) := by
  apply List.ext_getElem
  · simp
    omega
  · intro i h1 h2
    simp only [List.getElem_map, List.getElem_range]
    rw [List.getElem_take]
    rw [List.getElem?_eq_getElem (by simp at h1; omega)]

/-- The two grouping routines compute the same groups: the positional
`zip_longest` model of the downstream dataset coincides with the
block-recursive model of `PatchDataset.group_dataset`. -/
theorem downstreamGroups_eq_groupEntry (g : ℕ) (hg : 0 < g) :
    ∀ n (l : List π), l.length = n → downstreamGroups g l = groupEntry g l := by
  intro n
  induction n using Nat.strong_induction_on with
  | _ n ih =>
    intro l hl
    by_cases h : l.length < g
    · rw [groupEntry_small g l hg h]
      rcases Nat.eq_zero_or_pos l.length with h0 | h0
      · have hceil : (l.length + g - 1) / g = 0 := by
          apply Nat.div_eq_of_lt
          omega
        rw [downstreamGroups, hceil]
        rfl
      · have hceil : (l.length + g - 1) / g = 1 := by
          apply Nat.div_eq_of_lt_le <;> omega
        rw [downstreamGroups, hceil]
        have hmem : (none : Option π) ∈
            (List.range g).map (fun j => l[g * 0 + j]?) := by
          apply List.mem_map.mpr
          refine ⟨l.length, List.mem_range.mpr h, ?_⟩
          rw [Nat.mul_zero, Nat.zero_add]
          exact List.getElem?_eq_none (le_refl _)
        have hr1 : List.range 1 = [0] := rfl
        rw [hr1, List.map_cons, List.map_nil, List.filterMap_cons,
          keepFull_has_none _ hmem, List.filterMap_nil]
    · push_neg at h
      have hceil : (l.length + g - 1) / g = ((l.drop g).length + g - 1) / g + 1 := by
        rw [List.length_drop]
        rw [Nat.div_eq_sub_div hg (by omega : g ≤ l.length + g - 1)]
        congr 2
        omega
      rw [downstreamGroups, hceil, List.range_succ_eq_map, List.map_cons,
        List.map_map]
      have hfirst : (List.range g).map (fun j => l[g * 0 + j]?) =
          List.map some (l.take g) := by
        rw [← range_map_getElem_eq_take g l h]
        apply List.map_congr_left
        intro j _
        rw [Nat.mul_zero, Nat.zero_add]
      have hrest : (List.range (((l.drop g).length + g - 1) / g)).map
            ((fun i => (List.range g).map (fun j => l[g * i + j]?)) ∘ Nat.succ) =
          (List.range (((l.drop g).length + g - 1) / g)).map
            (fun i => (List.range g).map (fun j => (l.drop g)[g * i + j]?)) := by
        apply List.map_congr_left
        intro i _
        simp only [Function.comp_apply]
        apply List.map_congr_left
        intro j _
        rw [List.getElem?_drop]
        congr 1
        rw [Nat.succ_eq_add_one]
        ring
      rw [hfirst, hrest, List.filterMap_cons, keepFull_map_some]
      have hih : downstreamGroups g (l.drop g) = groupEntry g (l.drop g) := by
        apply ih (l.drop g).length _ (l.drop g) rfl
        rw [List.length_drop]
        omega
      rw [downstreamGroups] at hih
      rw [hih, groupEntry_big g l hg h]

end DownstreamGrouping

/-- One patient's records in `__create_index_mapping__`: each kept group of the
(shuffled) patch list becomes a record `{label := class_to_idx[class_label],
patient_id := [patient_id]*group_size, data_paths := ','.join(group)}`. -/
def createIndexMappingEntry (cls : Label) (pid : ImgId) (g : ℕ)
    (shuffled : List PatchPath) : List (Label × List ImgId × String) :=
  (downstreamGroups g shuffled).map
    (fun c => (cls, List.replicate g pid, String.intercalate "," c))

/-- C10: on a patient's patch list of length `n` (the downstream dataset
seeing an arbitrary shuffle `l2` of the list `l`), both grouping routines
emit exactly `⌊n/g⌋` groups of exactly `g` paths of that patient, dropping
the trailing `n mod g` paths, and they are the same grouping function on the
shuffled list. -/
theorem grouping_equivalence_C10 (g : ℕ) (hg : 1 ≤ g)
    (l l2 : List PatchPath) (hperm : l2.Perm l) :
    downstreamGroups g l2 = groupEntry g l2 ∧
    (downstreamGroups g l2).length = l.length / g ∧
    (groupEntry g l).length = l.length / g ∧
    (∀ c ∈ downstreamGroups g l2, c.length = g ∧ ∀ p ∈ c, p ∈ l) ∧
    (∀ cls pid, (createIndexMappingEntry cls pid g l2).length = l.length / g ∧
      ∀ r ∈ createIndexMappingEntry cls pid g l2,
        r.2.1 = List.replicate g pid) := by
  have hg0 : 0 < g := hg
  have heq : downstreamGroups g l2 = groupEntry g l2 :=
    downstreamGroups_eq_groupEntry g hg0 l2.length l2 rfl
  have hlen : l2.length = l.length := hperm.length_eq
  obtain ⟨hc1, _hc2, hc3⟩ := groupEntry_facts g hg0 l2.length l2 rfl
  refine ⟨heq, ?_, ?_, ?_, ?_⟩
  · rw [heq, hc1, hlen]
  · rw [(groupEntry_facts g hg0 l.length l rfl).1]
  · intro c hc
    rw [heq] at hc
    obtain ⟨h1, h2⟩ := hc3 c hc
    exact ⟨h1, fun p hp => hperm.mem_iff.mp (h2 p hp)⟩
  · intro cls pid
    constructor
    · rw [createIndexMappingEntry, List.length_map, heq, hc1, hlen]
    · intro r hr
      obtain ⟨c, _, rfl⟩ := List.mem_map.mp hr
      rfl

/-- Witness for C10 at a concrete patch list and a shuffle of it. -/
theorem grouping_equivalence_C10_witness :
    1 ≤ 2 ∧ (["b", "c", "a"] : List PatchPath).Perm ["a", "b", "c"] ∧
    (downstreamGroups 2 (["b", "c", "a"] : List PatchPath)).length =
      (["a", "b", "c"] : List PatchPath).length / 2 :=
  ⟨by norm_num, by decide,
    (grouping_equivalence_C10 2 (by norm_num) ["a", "b", "c"] ["b", "c", "a"]
      (by decide)).2.1⟩

/-- Witness for C4 at a concrete dataset: one image with three patches,
group size two. -/
theorem grouped_dataset_counts_C4_witness :
    1 ≤ 2 ∧ (group_dataset [("img1", ["a", "b", "c"], 0)] 2).length =
      ([("img1", ["a", "b", "c"], (0 : Label))].map
        (fun e => e.2.1.length / 2)).sum :=
  ⟨by norm_num, (grouped_dataset_counts_C4 [("img1", ["a", "b", "c"], 0)] 2
    (by norm_num)).2⟩

section ScoreBookkeeping

variable {α : Type} [LinearOrderedField α]

/-- Elementwise addition of two score vectors (tensor `+`). -/
def vadd (a b : List α) : List α := List.zipWith (· + ·) a b

/-- Model of `torch.sum(torch.stack(scores), dim=0)`: elementwise sum over a list of
equal-length score vectors (the caller guarantees nonemptiness, since
`torch.stack([])` raises). -/
def vsum : List (List α) → List α
  | [] => []
  | v :: vs => vs.foldl vadd v

/-- Model of `torch.mean(stack, axis=0)`: elementwise mean over the stacked vectors. -/
def vmean (rows : List (List α)) : List α :=
  (vsum rows).map (fun x => x / (rows.length : α))

/-- Helper for `argmax`: carry the best index/value seen so far (strict
improvement only, so ties keep the earliest index, as `torch.argmax` does). -/
def argmaxFrom (bi : ℕ) (bv : α) (i : ℕ) : List α → ℕ
  | [] => bi
  | x :: xs => if bv < x then argmaxFrom i x (i + 1) xs else argmaxFrom bi bv (i + 1) xs

/-- Model of `torch.argmax` on a score vector: index of the first maximal entry. -/
def argmax : List α → ℕ
  | [] => 0
  | x :: xs => argmaxFrom 0 x 1 xs

/-- Tie-breaking step for `mode`: prefer the value with the larger count,
and the smaller value among equal counts. -/
def modePick (l : List ℕ) (a b : ℕ) : ℕ :=
  if l.count a < l.count b ∨ (l.count b = l.count a ∧ b < a) then b else a

/-- Model of `torch.mode(...).values` on a 1-d integer tensor: a most frequent value
of the list (the smallest among tied modes). -/
def mode (l : List ℕ) : ℕ :=
  match l with
  | [] => 0
  | x :: xs => xs.foldl (modePick l) x

theorem modePick_cases (l : List ℕ) (a b : ℕ) :
    modePick l a b = a ∨ modePick l a b = b := by
  unfold modePick
  split
  · right; rfl
  · left; rfl

theorem count_le_modePick (l : List ℕ) (a b : ℕ) :
    l.count a ≤ l.count (modePick l a b) ∧ l.count b ≤ l.count (modePick l a b) := by
  unfold modePick
  by_cases hc : l.count a < l.count b ∨ (l.count b = l.count a ∧ b < a)
  · rw [if_pos hc]
    rcases hc with hc | hc
    · exact ⟨le_of_lt hc, le_refl _⟩
    · exact ⟨le_of_eq hc.1.symm, le_refl _⟩
  · rw [if_neg hc]
    have h1 : ¬ l.count a < l.count b := fun h => hc (Or.inl h)
    exact ⟨le_refl _, le_of_not_lt h1⟩

theorem foldl_modePick_mem (l : List ℕ) :
    ∀ (xs : List ℕ) (a : ℕ), xs.foldl (modePick l) a = a ∨ xs.foldl (modePick l) a ∈ xs := by
  intro xs
  induction xs with
  | nil => intro a; left; rfl
  | cons x xs ih =>
    intro a
    rw [List.foldl_cons]
    rcases ih (modePick l a x) with h | h
    · rw [h]
      rcases modePick_cases l a x with h2 | h2
      · left; exact h2
      · right; rw [h2]; exact List.mem_cons_self x xs
    · right; exact List.mem_cons_of_mem x h

theorem foldl_modePick_count (l : List ℕ) :
    ∀ (xs : List ℕ) (a v : ℕ), (v = a ∨ v ∈ xs) →
      l.count v ≤ l.count (xs.foldl (modePick l) a) := by
  intro xs
  induction xs with
  | nil =>
    intro a v hv
    rcases hv with rfl | hv
    · exact le_refl _
    · simp at hv
  | cons x xs ih =>
    intro a v hv
    rw [List.foldl_cons]
    rcases hv with rfl | hv
    · exact le_trans (count_le_modePick l v x).1 (ih (modePick l v x) _ (Or.inl rfl))
    · rcases List.mem_cons.mp hv with rfl | hv2
      · exact le_trans (count_le_modePick l a v).2 (ih (modePick l a v) _ (Or.inl rfl))
      · exact ih (modePick l a x) v (Or.inr hv2)

theorem mode_mem (l : List ℕ) (h : l ≠ []) : mode l ∈ l := by
  obtain ⟨x, xs, rfl⟩ := List.exists_cons_of_ne_nil h
  rw [mode]
  rcases foldl_modePick_mem (x :: xs) xs x with h2 | h2
  · rw [h2]; exact List.mem_cons_self x xs
  · exact List.mem_cons_of_mem x h2

theorem count_le_mode (l : List ℕ) (v : ℕ) (hv : v ∈ l) :
    l.count v ≤ l.count (mode l) := by
  match l with
  | [] => simp at hv
  | x :: xs =>
    rw [mode]
    exact foldl_modePick_count (x :: xs) xs x v (by
      rcases List.mem_cons.mp hv with h | h
      · left; exact h
      · right; exact h)

/-- Model of `torchmetrics.functional.accuracy` on integer predictions and targets:
the fraction of positions where they agree. -/
def accuracyQ (preds targets : List ℕ) : ℚ :=
  (((preds.zip targets).countP (fun pr => pr.1 == pr.2) : ℕ) : ℚ) /
    ((preds.length : ℕ) : ℚ)

end ScoreBookkeeping

/-- The nested dict `img_samples_score_dict[img_id][patch_path]`, as
insertion-ordered association lists; a slot holds `none` until a score
tensor is recorded for that patch. -/
abbrev ScoreDict (α : Type) := List (ImgId × List (PatchPath × Option (List α)))

section ScoreDictOps

variable {α : Type} [LinearOrderedField α]

/-- Model of `PatchDataset.get_img_samples_score_dict`: every patch of every image of
the samples dict is mapped to `None`. -/
def mkImgSamplesScoreDict (samples : List (ImgId × List PatchPath × Label)) :
    ScoreDict α :=
  samples.map (fun e => (e.1, e.2.1.map (fun p => (p, none))))

/-- Python dict assignment `inner[patch_path] = score` on the inner dict:
overwrite the slot if the key exists, append the pair otherwise. -/
def setPath (pm : List (PatchPath × Option (List α))) (p : PatchPath)
    (s : List α) : List (PatchPath × Option (List α)) :=
  if pm.any (fun pr => pr.1 == p) then
    pm.map (fun pr => if pr.1 == p then (pr.1, some s) else pr)
  else pm ++ [(p, some s)]

/-- One `img_samples_score_dict[img_id][patch_path] = patch_score` assignment
as performed by `PatientLevelValidation.update_dicts` and by `fill_dict` in
`make_ROC_1outneuron.py`. -/
def applyScoreUpdate (d : ScoreDict α) (u : ImgId × PatchPath × List α) :
    ScoreDict α :=
  d.map (fun ent => if ent.1 == u.1 then (ent.1, setPath ent.2 u.2.1 u.2.2) else ent)

/-- The score dict after a run: the all-`None` dict built from the samples
dict, filled by a sequence of per-patch score assignments. -/
def finalScoreDict (samples : List (ImgId × List PatchPath × Label))
    (updates : List (ImgId × PatchPath × List α)) : ScoreDict α :=
  updates.foldl applyScoreUpdate (mkImgSamplesScoreDict samples)

/-- The `img_yhat` list built by `score_dict` for one image: the recorded
(non-`None`) patch scores, in patch insertion order. -/
def imgNonNoneScores (pm : List (PatchPath × Option (List α))) : List (List α) :=
  pm.filterMap (fun pr => pr.2)

/-- The recorded scores of one image: `img_samples_score_dict[img_id]`
filtered to its non-`None` entries. -/
def scoresOf (d : ScoreDict α) (img : ImgId) : List (List α) :=
  imgNonNoneScores ((List.lookup img d).getD [])

/-- The majority-vote prediction of one image:
`torch.mode(torch.argmax(torch.stack(img_yhat), dim=1)).values`. -/
def imgMajorityPred (d : ScoreDict α) (img : ImgId) : ℕ :=
  mode ((scoresOf d img).map argmax)

/-- The main loop of `PatientLevelValidation.score_dict`: iterate the samples
dict in order and collect, per image, the ground-truth label, the raw-sum
vector `torch.sum(torch.stack(img_yhat), dim=0)` and the majority vote
`torch.mode(torch.argmax(..., dim=1)).values`.  A missing dict key
(`KeyError`) or an image with no recorded scores (`torch.stack([])` raising,
caught by the `except: pdb.set_trace()` branch) aborts the computation. -/
def scoreDictLists (d : ScoreDict α) :
    List (ImgId × List PatchPath × Label) →
    Except Unit (List Label × List (List α) × List ℕ)
  | [] => .ok ([], [], [])
  | e :: rest =>
    match List.lookup e.1 d with
    | none => .error ()
    | some pm =>
      if (imgNonNoneScores pm).isEmpty then .error ()
      else
        match scoreDictLists d rest with
        | .error _ => .error ()
        | .ok (ys, rs, ms) =>
          .ok (e.2.2 :: ys, vsum (imgNonNoneScores pm) :: rs,
            mode ((imgNonNoneScores pm).map argmax) :: ms)

/-- Model of `PatientLevelValidation.score_dict`: the logged pair
`(rawsum_acc, majority_vote_acc)` — accuracy of the argmax of the summed
per-class vectors, and accuracy of the majority votes, both against the
per-image labels. -/
def score_dict (d : ScoreDict α)
    (samples : List (ImgId × List PatchPath × Label)) : Except Unit (ℚ × ℚ) :=
  match scoreDictLists d samples with
  | .error _ => .error ()
  | .ok (ys, rs, ms) => .ok (accuracyQ (rs.map argmax) ys, accuracyQ ms ys)

/-- Output of `MyResNet.validation_step`: it returns `batch_outputs = out.clone().detach()`:
the raw `fc` outputs, unchanged — the `Sigmoid` layer of `MyResNet.__init__`
is commented out and `validation_step` applies no activation. -/
def validationStepBatchOutputs (out : List (List α)) : List (List α) := out

theorem scoreDictLists_eq (d : ScoreDict α)
    (samples : List (ImgId × List PatchPath × Label))
    (h : ∀ e ∈ samples, ∃ pm, List.lookup e.1 d = some pm ∧
      (imgNonNoneScores pm).isEmpty = false) :
    scoreDictLists d samples = .ok (samples.map (fun e => e.2.2),
      samples.map (fun e => vsum (scoresOf d e.1)),
      samples.map (fun e => imgMajorityPred d e.1)) := by
  induction samples with
  | nil => rfl
  | cons e rest ih =>
    obtain ⟨pm, hpm, hne⟩ := h e (List.mem_cons_self e rest)
    have hscores : scoresOf d e.1 = imgNonNoneScores pm := by
      rw [scoresOf, hpm]
      rfl
    rw [scoreDictLists, hpm]
    simp only [hne, Bool.false_eq_true, if_false,
      ih (fun e2 he2 => h e2 (List.mem_cons_of_mem e he2)), List.map_cons,
      hscores, imgMajorityPred]

end ScoreDictOps

/-- C6: patient-level accuracy is computed per image, not per patch: when
every image of the samples dict has at least one recorded score, the lists
built by `score_dict` hold exactly one ground-truth label, one raw-sum
prediction and one majority-vote prediction per image id — regardless of how
many patches each image has — and the logged accuracies are computed over
exactly those per-image lists. -/
theorem patient_level_per_image_C6 {α : Type} [LinearOrderedField α]
    (d : ScoreDict α) (samples : List (ImgId × List PatchPath × Label))
    (h : ∀ e ∈ samples, ∃ pm, List.lookup e.1 d = some pm ∧
      (imgNonNoneScores pm).isEmpty = false) :
    ∃ ys rs ms, scoreDictLists d samples = .ok (ys, rs, ms) ∧
      ys.length = samples.length ∧ rs.length = samples.length ∧
      ms.length = samples.length ∧
      ys = samples.map (fun e => e.2.2) ∧
      rs = samples.map (fun e => vsum (scoresOf d e.1)) ∧
      ms = samples.map (fun e => imgMajorityPred d e.1) ∧
      score_dict d samples = .ok (accuracyQ (rs.map argmax) ys, accuracyQ ms ys) := by
  refine ⟨samples.map (fun e => e.2.2), samples.map (fun e => vsum (scoresOf d e.1)),
    samples.map (fun e => imgMajorityPred d e.1), scoreDictLists_eq d samples h,
    List.length_map _ _, List.length_map _ _, List.length_map _ _, rfl, rfl, rfl, ?_⟩
  rw [score_dict, scoreDictLists_eq d samples h]

/-- Concrete samples dict for the C6 witness: one image with two patches. -/
def c6Samples : List (ImgId × List PatchPath × Label) := [("img1", ["p1", "p2"], 1)]

/-- Concrete score dict for the C6 witness: one patch scored, one still `None`. -/
def c6Dict : ScoreDict ℚ := [("img1", [("p1", some [1, 2]), ("p2", none)])]

/-- Witness for C6 at the concrete dict: both hypothesis and conclusion hold. -/
theorem patient_level_per_image_C6_witness :
    (∀ e ∈ c6Samples, ∃ pm, List.lookup e.1 c6Dict = some pm ∧
      (imgNonNoneScores pm).isEmpty = false) ∧
    (∃ ys rs ms, scoreDictLists c6Dict c6Samples = .ok (ys, rs, ms) ∧
      ys.length = c6Samples.length ∧ rs.length = c6Samples.length ∧
      ms.length = c6Samples.length ∧
      ys = c6Samples.map (fun e => e.2.2) ∧
      rs = c6Samples.map (fun e => vsum (scoresOf c6Dict e.1)) ∧
      ms = c6Samples.map (fun e => imgMajorityPred c6Dict e.1) ∧
      score_dict c6Dict c6Samples =
        .ok (accuracyQ (rs.map argmax) ys, accuracyQ ms ys)) := by
  have hp : ∀ e ∈ c6Samples, ∃ pm, List.lookup e.1 c6Dict = some pm ∧
      (imgNonNoneScores pm).isEmpty = false := by
    intro e he
    rw [c6Samples, List.mem_singleton] at he
    subst he
    exact ⟨[("p1", some [1, 2]), ("p2", none)], by decide, by decide⟩
  exact ⟨hp, patient_level_per_image_C6 c6Dict c6Samples hp⟩

/-- C2: for every image with recorded scores, the majority-vote prediction is
`mode` of the per-patch argmax indices — a most frequent value among them —
and the logged majority-vote accuracy is the accuracy of these one-per-image
predictions against the per-image ground-truth labels. -/
theorem majority_vote_C2 {α : Type} [LinearOrderedField α]
    (d : ScoreDict α) (samples : List (ImgId × List PatchPath × Label))
    (h : ∀ e ∈ samples, ∃ pm, List.lookup e.1 d = some pm ∧
      (imgNonNoneScores pm).isEmpty = false) :
    (∃ racc, score_dict d samples = .ok (racc,
      accuracyQ (samples.map (fun e => imgMajorityPred d e.1))
        (samples.map (fun e => e.2.2)))) ∧
    ∀ e ∈ samples,
      imgMajorityPred d e.1 = mode ((scoresOf d e.1).map argmax) ∧
      imgMajorityPred d e.1 ∈ (scoresOf d e.1).map argmax ∧
      ∀ v, ((scoresOf d e.1).map argmax).count v ≤
        ((scoresOf d e.1).map argmax).count (imgMajorityPred d e.1) := by
  constructor
  · rw [score_dict, scoreDictLists_eq d samples h]
    exact ⟨_, rfl⟩
  · intro e he
    obtain ⟨pm, hpm, hne⟩ := h e he
    have hscores : scoresOf d e.1 = imgNonNoneScores pm := by
      rw [scoresOf, hpm]
      rfl
    have hnil : (scoresOf d e.1).map argmax ≠ [] := by
      rw [hscores]
      intro hcon
      rw [List.map_eq_nil_iff] at hcon
      rw [hcon] at hne
      simp at hne
    refine ⟨rfl, mode_mem _ hnil, ?_⟩
    intro v
    by_cases hv : v ∈ (scoresOf d e.1).map argmax
    · exact count_le_mode _ v hv
    · rw [List.count_eq_zero_of_not_mem hv]
      exact Nat.zero_le _

/-- Concrete samples dict for the C2 witness: one image with three patches. -/
def c2Samples : List (ImgId × List PatchPath × Label) := [("img1", ["p1", "p2", "p3"], 0)]

/-- Concrete score dict for the C2 witness: three scored patches whose argmax
indices are `0, 1, 0`, so the majority vote is `0`. -/
def c2Dict : ScoreDict ℚ :=
  [("img1", [("p1", some [3, 1]), ("p2", some [0, 2]), ("p3", some [5, 4])])]

/-- Witness for C2 at the concrete dict. -/
theorem majority_vote_C2_witness :
    (∀ e ∈ c2Samples, ∃ pm, List.lookup e.1 c2Dict = some pm ∧
      (imgNonNoneScores pm).isEmpty = false) ∧
    ((∃ racc, score_dict c2Dict c2Samples = .ok (racc,
      accuracyQ (c2Samples.map (fun e => imgMajorityPred c2Dict e.1))
        (c2Samples.map (fun e => e.2.2)))) ∧
    ∀ e ∈ c2Samples,
      imgMajorityPred c2Dict e.1 = mode ((scoresOf c2Dict e.1).map argmax) ∧
      imgMajorityPred c2Dict e.1 ∈ (scoresOf c2Dict e.1).map argmax ∧
      ∀ v, ((scoresOf c2Dict e.1).map argmax).count v ≤
        ((scoresOf c2Dict e.1).map argmax).count (imgMajorityPred c2Dict e.1)) := by
  have hp : ∀ e ∈ c2Samples, ∃ pm, List.lookup e.1 c2Dict = some pm ∧
      (imgNonNoneScores pm).isEmpty = false := by
    intro e he
    rw [c2Samples, List.mem_singleton] at he
    subst he
    exact ⟨[("p1", some [3, 1]), ("p2", some [0, 2]), ("p3", some [5, 4])],
      by decide, by decide⟩
  exact ⟨hp, majority_vote_C2 c2Dict c2Samples hp⟩

/-- C1 (amended): the raw-sum image-level prediction used for the logged
raw-sum accuracy is the elementwise sum of the *raw* recorded patch scores:
`validation_step` hands back its `fc` outputs unchanged (no sigmoid — the
`Sigmoid` layer is commented out), and `score_dict` sums exactly those. -/
theorem rawsum_raw_logits_C1 {α : Type} [LinearOrderedField α]
    (d : ScoreDict α) (samples : List (ImgId × List PatchPath × Label))
    (h : ∀ e ∈ samples, ∃ pm, List.lookup e.1 d = some pm ∧
      (imgNonNoneScores pm).isEmpty = false) :
    (∀ out : List (List α), validationStepBatchOutputs out = out) ∧
    (∃ ys ms, scoreDictLists d samples =
      .ok (ys, samples.map (fun e => vsum (scoresOf d e.1)), ms)) ∧
    (∃ macc, score_dict d samples = .ok
      (accuracyQ ((samples.map (fun e => vsum (scoresOf d e.1))).map argmax)
        (samples.map (fun e => e.2.2)), macc)) := by
  refine ⟨fun _ => rfl, ⟨_, _, scoreDictLists_eq d samples h⟩, ?_⟩
  rw [score_dict, scoreDictLists_eq d samples h]
  exact ⟨_, rfl⟩

/-- Concrete samples dict for the C1 theorems: one image with one patch. -/
def c1Samples : List (ImgId × List PatchPath × Label) := [("img1", ["p1"], 0)]

/-- Concrete updates for the C1 theorems: the patch's recorded score is the
raw `validation_step` output `[0]`. -/
def c1Updates : List (ImgId × PatchPath × List ℝ) := [("img1", "p1", [0])]

/-- Witness for the amended C1 at the concrete dict. -/
theorem rawsum_raw_logits_C1_witness :
    (∀ e ∈ c1Samples, ∃ pm,
      List.lookup e.1 (finalScoreDict c1Samples c1Updates) = some pm ∧
      (imgNonNoneScores pm).isEmpty = false) ∧
    ((∀ out : List (List ℝ), validationStepBatchOutputs out = out) ∧
    (∃ ys ms, scoreDictLists (finalScoreDict c1Samples c1Updates) c1Samples =
      .ok (ys, c1Samples.map
        (fun e => vsum (scoresOf (finalScoreDict c1Samples c1Updates) e.1)), ms)) ∧
    (∃ macc, score_dict (finalScoreDict c1Samples c1Updates) c1Samples = .ok
      (accuracyQ ((c1Samples.map
          (fun e => vsum (scoresOf (finalScoreDict c1Samples c1Updates) e.1))).map argmax)
        (c1Samples.map (fun e => e.2.2)), macc))) := by
  have hp : ∀ e ∈ c1Samples, ∃ pm,
      List.lookup e.1 (finalScoreDict c1Samples c1Updates) = some pm ∧
      (imgNonNoneScores pm).isEmpty = false := by
    intro e he
    rw [c1Samples, List.mem_singleton] at he
    subst he
    exact ⟨[("p1", some [0])], rfl, rfl⟩
  exact ⟨hp, rawsum_raw_logits_C1 (finalScoreDict c1Samples c1Updates) c1Samples hp⟩

/-- Model of `torch.sigmoid` / `torch.nn.functional.sigmoid`: the logistic function. -/
noncomputable def sigmoid (x : ℝ) : ℝ := 1 / (1 + Real.exp (-x))

/-- Definition following the claim C1's words, for comparison with the code:
the raw-sum prediction as the elementwise sum of the *sigmoids* of the
per-patch model outputs. -/
noncomputable def rawsumSigmoidClaim (scores : List (List ℝ)) : List ℝ :=
  vsum (scores.map (List.map sigmoid))

theorem sigmoid_zero : sigmoid 0 = 1 / 2 := by
  rw [sigmoid, neg_zero, Real.exp_zero]
  norm_num

/-- Counterexample to C1 as stated: with the single patch score being the raw
`validation_step` output `[0]`, the code's raw-sum prediction is `[0]`, while
the sum of sigmoided patch scores would be `[1/2]` — `score_dict` applies no
sigmoid before the raw-sum aggregation. -/
theorem rawsum_sigmoid_C1_counterexample :
    validationStepBatchOutputs [[(0 : ℝ)]] = [[(0 : ℝ)]] ∧
    scoresOf (finalScoreDict c1Samples c1Updates) "img1" = [[(0 : ℝ)]] ∧
    scoreDictLists (finalScoreDict c1Samples c1Updates) c1Samples =
      .ok ([0], [[(0 : ℝ)]], [0]) ∧
    rawsumSigmoidClaim [[(0 : ℝ)]] = [(1 : ℝ) / 2] ∧
    ([(0 : ℝ)] : List ℝ) ≠ [(1 : ℝ) / 2] := by
  refine ⟨rfl, rfl, rfl, ?_, ?_⟩
  · rw [rawsumSigmoidClaim]
    simp only [List.map_cons, List.map_nil, sigmoid_zero]
    rfl
  · intro hcon
    have : (0 : ℝ) = 1 / 2 := List.head_eq_of_cons_eq hcon
    norm_num at this

/-- Model of `MyResNet.get_preds`: `out = torch.nn.functional.sigmoid(self(x))` — the
per-patch scores handed to the ROC pipeline are the sigmoided model outputs. -/
noncomputable def getPredsScores (outs : List (List ℝ)) : List (List ℝ) :=
  outs.map (List.map sigmoid)

/-- The per-image prediction computed inside `get_roc_image_level`:
`torch.mean(torch.sigmoid(torch.stack(all_img_scores)), axis=0)` — sigmoid
the stored patch scores once more, then average over the patches. -/
noncomputable def rocImagePred (patchScores : List (List ℝ)) : List ℝ :=
  vmean (patchScores.map (List.map sigmoid))

/-- Model of `get_roc_image_level`: iterate the score dict in order; for each image
stack its non-`None` recorded scores (`torch.stack` on an empty list raising,
caught by the `except: pdb.set_trace()` branch), sigmoid and average them,
and pair the prediction with the ground-truth label from the samples dict. -/
noncomputable def getRocImageLevel :
    ScoreDict ℝ → List (ImgId × List PatchPath × Label) →
    Except Unit (List (List ℝ) × List Label)
  | [], _ => .ok ([], [])
  | ent :: rest, gt =>
    if (imgNonNoneScores ent.2).isEmpty then .error ()
    else
      match List.lookup ent.1 gt with
      | none => .error ()
      | some v =>
        match getRocImageLevel rest gt with
        | .error _ => .error ()
        | .ok (ps, ys) => .ok (rocImagePred (imgNonNoneScores ent.2) :: ps, v.2 :: ys)

/-- C3 (amended): end to end, the ROC pipeline applies the sigmoid twice: the
per-image prediction fed to the image-level ROC is the mean, over the image's
recorded patches, of `sigmoid (sigmoid (model output))` — once in
`get_preds`, and a second time in `get_roc_image_level`. -/
theorem roc_image_pred_double_sigmoid_C3 (outs : List (List ℝ)) :
    rocImagePred (getPredsScores outs) =
      vmean (outs.map (List.map (fun x => sigmoid (sigmoid x)))) := by
  rw [rocImagePred, getPredsScores, List.map_map]
  congr 1
  apply List.map_congr_left
  intro v _
  rw [Function.comp_apply, List.map_map]
  rfl

/-- Definition following claim C3's words, for comparison with the code: the
per-image prediction as the mean of the patch scores with the sigmoid applied
exactly once to the raw model outputs. -/
noncomputable def rocPredSigmoidOnceClaim (outs : List (List ℝ)) : List ℝ :=
  vmean (outs.map (List.map sigmoid))

/-- Concrete samples dict for the C3 counterexample. -/
def c3Samples : List (ImgId × List PatchPath × Label) := [("img1", ["p1"], 0)]

/-- Concrete updates for the C3 counterexample: as in `make_roc_main`, the
recorded patch score is the `get_preds` output (already sigmoided) for the
raw model output `[0]`. -/
noncomputable def c3Updates : List (ImgId × PatchPath × List ℝ) :=
  [("img1", "p1", (getPredsScores [[0]]).headD [])]

theorem exp_neg_half_ne_one : Real.exp (-(1 / 2 : ℝ)) ≠ 1 := by
  have hlt : Real.exp (-(1 / 2 : ℝ)) < 1 := by
    rw [← Real.exp_zero]
    exact Real.exp_lt_exp.mpr (by norm_num)
  exact ne_of_lt hlt

theorem sigmoid_half_ne_half : sigmoid (1 / 2) ≠ 1 / 2 := by
  rw [sigmoid]
  intro hcon
  have hpos : 0 < 1 + Real.exp (-(1 / 2 : ℝ)) := by positivity
  rw [div_eq_div_iff (ne_of_gt hpos) (by norm_num : (2 : ℝ) ≠ 0)] at hcon
  exact exp_neg_half_ne_one (by linarith)

/-- Counterexample to C3 as stated: for a raw model output `[0]`, the
prediction the pipeline feeds to the image-level ROC is
`[sigmoid (sigmoid 0)] = [sigmoid (1/2)]`, not the single-sigmoid mean
`[1/2]` — the sigmoid is applied twice, not exactly once. -/
theorem roc_double_sigmoid_C3_counterexample :
    getRocImageLevel (finalScoreDict c3Samples c3Updates) c3Samples =
      .ok ([rocImagePred (getPredsScores [[(0 : ℝ)]])], [0]) ∧
    rocImagePred (getPredsScores [[(0 : ℝ)]]) = [sigmoid (1 / 2)] ∧
    rocPredSigmoidOnceClaim [[(0 : ℝ)]] = [(1 : ℝ) / 2] ∧
    rocImagePred (getPredsScores [[(0 : ℝ)]]) ≠ rocPredSigmoidOnceClaim [[(0 : ℝ)]] := by
  have h2 : rocImagePred (getPredsScores [[(0 : ℝ)]]) = [sigmoid (1 / 2)] := by
    rw [rocImagePred, getPredsScores]
    simp only [List.map_cons, List.map_nil, sigmoid_zero]
    show vmean [[sigmoid (1 / 2)]] = [sigmoid (1 / 2)]
    rw [vmean]
    norm_num [vsum]
  have h3 : rocPredSigmoidOnceClaim [[(0 : ℝ)]] = [(1 : ℝ) / 2] := by
    rw [rocPredSigmoidOnceClaim]
    simp only [List.map_cons, List.map_nil, sigmoid_zero]
    rw [vmean]
    norm_num [vsum]
  refine ⟨rfl, h2, h3, ?_⟩
  rw [h2, h3]
  intro hcon
  rw [List.cons.injEq] at hcon
  exact sigmoid_half_ne_half hcon.1

/-- Whether an `Except` computation succeeded (did not hit an error branch). -/
def isOkE {ε β : Type} : Except ε β → Bool
  | .ok _ => true
  | .error _ => false

theorem exceptUnit_error_of_not_ok {β : Type} (x : Except Unit β)
    (h : isOkE x = false) : x = .error () := by
  cases x with
  | ok v => simp [isOkE] at h
  | error e => cases e; rfl

section ScoreDictLemmas

variable {α : Type} [LinearOrderedField α]

theorem keys_applyScoreUpdate (d : ScoreDict α) (u : ImgId × PatchPath × List α) :
    (applyScoreUpdate d u).map (fun ent => ent.1) = d.map (fun ent => ent.1) := by
  rw [applyScoreUpdate, List.map_map]
  apply List.map_congr_left
  intro ent _
  simp only [Function.comp_apply]
  split <;> rfl

theorem keys_foldl_updates (updates : List (ImgId × PatchPath × List α)) :
    ∀ d : ScoreDict α,
      (updates.foldl applyScoreUpdate d).map (fun ent => ent.1) =
        d.map (fun ent => ent.1) := by
  induction updates with
  | nil => intro d; rfl
  | cons u us ih =>
    intro d
    rw [List.foldl_cons, ih, keys_applyScoreUpdate]

theorem keys_finalScoreDict (samples : List (ImgId × List PatchPath × Label))
    (updates : List (ImgId × PatchPath × List α)) :
    (finalScoreDict samples updates).map (fun ent => ent.1) =
      samples.map (fun e => e.1) := by
  rw [finalScoreDict, keys_foldl_updates, mkImgSamplesScoreDict, List.map_map]
  rfl

theorem lookup_isSome_of_mem_keys {β : Type} (img : ImgId) (d : List (ImgId × β))
    (h : img ∈ d.map (fun ent => ent.1)) : (List.lookup img d).isSome = true := by
  induction d with
  | nil => simp at h
  | cons ent rest ih =>
    cases hbeq : (img == ent.1) with
    | true => simp [List.lookup, hbeq]
    | false =>
      simp only [List.lookup, hbeq]
      apply ih
      rw [List.map_cons, List.mem_cons] at h
      rcases h with h | h
      · exact absurd h (beq_eq_false_iff_ne.mp hbeq)
      · exact h

theorem mem_of_lookup_eq_some {β : Type} (img : ImgId) (d : List (ImgId × β))
    (pm : β) (h : List.lookup img d = some pm) : (img, pm) ∈ d := by
  induction d with
  | nil => simp [List.lookup] at h
  | cons ent rest ih =>
    cases hbeq : (img == ent.1) with
    | true =>
      rw [List.lookup, hbeq] at h
      have h1 : img = ent.1 := eq_of_beq hbeq
      have h2 : pm = ent.2 := by
        injection h with h3
        exact h3.symm
      rw [h1, h2]
      exact List.mem_cons_self _ _
    | false =>
      rw [List.lookup, hbeq] at h
      exact List.mem_cons_of_mem ent (ih h)

theorem lookup_of_mem_keys_nodup {β : Type} (d : List (ImgId × β))
    (hnd : (d.map (fun ent => ent.1)).Nodup) (ent : ImgId × β) (hent : ent ∈ d) :
    List.lookup ent.1 d = some ent.2 := by
  induction d with
  | nil => simp at hent
  | cons s rest ih =>
    rw [List.map_cons] at hnd
    have hnotin := (List.nodup_cons.mp hnd).1
    have hrest := (List.nodup_cons.mp hnd).2
    rcases List.mem_cons.mp hent with rfl | hent2
    · simp [List.lookup]
    · have hne : (ent.1 == s.1) = false := by
        apply beq_eq_false_iff_ne.mpr
        intro hh
        exact hnotin (hh ▸ List.mem_map_of_mem (fun ent => ent.1) hent2)
      rw [List.lookup, hne]
      exact ih hrest hent2

theorem lookup_cons_eq {β : Type} (img k : ImgId) (v : β) (tl : List (ImgId × β)) :
    List.lookup img ((k, v) :: tl) =
      match img == k with
      | true => some v
      | false => List.lookup img tl := by
  rw [List.lookup]
  rfl

theorem lookup_applyScoreUpdate_ne (d : ScoreDict α) (u : ImgId × PatchPath × List α)
    (img : ImgId) (hne : u.1 ≠ img) :
    List.lookup img (applyScoreUpdate d u) = List.lookup img d := by
  induction d with
  | nil => rfl
  | cons ent rest ih =>
    obtain ⟨k, v⟩ := ent
    have hstep : applyScoreUpdate ((k, v) :: rest) u =
        (if ((k, v).1 == u.1) = true then ((k, v).1, setPath (k, v).2 u.2.1 u.2.2)
          else (k, v)) :: applyScoreUpdate rest u := by
      rw [applyScoreUpdate, List.map_cons]
      rfl
    rw [hstep]
    by_cases hb : ((k, v).1 == u.1) = true
    · cases hbeq : (img == k) with
      | true => exact absurd ((eq_of_beq hbeq).trans (eq_of_beq hb)).symm hne
      | false =>
        rw [if_pos hb]
        rw [lookup_cons_eq img k (setPath (k, v).2 u.2.1 u.2.2) (applyScoreUpdate rest u),
          lookup_cons_eq img k v rest, hbeq]
        exact ih
    · rw [if_neg hb]
      rw [lookup_cons_eq img k v (applyScoreUpdate rest u), lookup_cons_eq img k v rest]
      cases hbeq : (img == k) with
      | true => rfl
      | false => exact ih

theorem lookup_foldl_no_update (img : ImgId)
    (updates : List (ImgId × PatchPath × List α))
    (hupd : ∀ u ∈ updates, u.1 ≠ img) :
    ∀ d : ScoreDict α,
      List.lookup img (updates.foldl applyScoreUpdate d) = List.lookup img d := by
  induction updates with
  | nil => intro d; rfl
  | cons u us ih =>
    intro d
    rw [List.foldl_cons, ih (fun v hv => hupd v (List.mem_cons_of_mem u hv)),
      lookup_applyScoreUpdate_ne d u img (hupd u (List.mem_cons_self u us))]

theorem lookup_mkImgSamplesScoreDict (samples : List (ImgId × List PatchPath × Label))
    (e : ImgId × List PatchPath × Label) (he : e ∈ samples)
    (hnd : (samples.map (fun x => x.1)).Nodup) :
    List.lookup e.1 (mkImgSamplesScoreDict (α := α) samples) =
      some (e.2.1.map (fun p => (p, none))) := by
  induction samples with
  | nil => simp at he
  | cons s rest ih =>
    rw [List.map_cons] at hnd
    have hnotin := (List.nodup_cons.mp hnd).1
    have hrest := (List.nodup_cons.mp hnd).2
    rw [mkImgSamplesScoreDict, List.map_cons]
    rcases List.mem_cons.mp he with rfl | he2
    · simp [List.lookup]
    · have hne : (e.1 == s.1) = false := by
        apply beq_eq_false_iff_ne.mpr
        intro hh
        exact hnotin (hh ▸ List.mem_map_of_mem (fun x => x.1) he2)
      rw [List.lookup, hne]
      exact ih he2 hrest

theorem imgNonNoneScores_mk (paths : List PatchPath) :
    imgNonNoneScores (paths.map (fun p => (p, (none : Option (List α))))) = [] := by
  induction paths with
  | nil => rfl
  | cons p ps ih =>
    rw [imgNonNoneScores] at ih ⊢
    rw [List.map_cons, List.filterMap_cons]
    exact ih

theorem eq_of_mem_keys_nodup (samples : List (ImgId × List PatchPath × Label))
    (hnd : (samples.map (fun e => e.1)).Nodup)
    (e1 e2 : ImgId × List PatchPath × Label) (h1 : e1 ∈ samples)
    (h2 : e2 ∈ samples) (heq : e1.1 = e2.1) : e1 = e2 := by
  induction samples with
  | nil => simp at h1
  | cons s rest ih =>
    rw [List.map_cons] at hnd
    have hnotin := (List.nodup_cons.mp hnd).1
    have hrest := (List.nodup_cons.mp hnd).2
    rcases List.mem_cons.mp h1 with rfl | h1r
    · rcases List.mem_cons.mp h2 with rfl | h2r
      · rfl
      · exact absurd (heq ▸ List.mem_map_of_mem (fun e => e.1) h2r) hnotin
    · rcases List.mem_cons.mp h2 with rfl | h2r
      · exact absurd (heq ▸ List.mem_map_of_mem (fun e => e.1) h1r) hnotin
      · exact ih hrest h1r h2r

theorem scoreDictLists_cons_none (d : ScoreDict α)
    (s : ImgId × List PatchPath × Label)
    (rest : List (ImgId × List PatchPath × Label))
    (hlk : List.lookup s.1 d = none) :
    scoreDictLists d (s :: rest) = .error () := by
  rw [scoreDictLists, hlk]

theorem scoreDictLists_cons_some (d : ScoreDict α)
    (s : ImgId × List PatchPath × Label)
    (rest : List (ImgId × List PatchPath × Label))
    (pm : List (PatchPath × Option (List α)))
    (hlk : List.lookup s.1 d = some pm) :
    scoreDictLists d (s :: rest) =
      if (imgNonNoneScores pm).isEmpty then .error ()
      else
        match scoreDictLists d rest with
        | .error _ => .error ()
        | .ok (ys, rs, ms) =>
          .ok (s.2.2 :: ys, vsum (imgNonNoneScores pm) :: rs,
            mode ((imgNonNoneScores pm).map argmax) :: ms) := by
  rw [scoreDictLists, hlk]

theorem scoreDictLists_ok_forall (d : ScoreDict α) :
    ∀ samples, isOkE (scoreDictLists d samples) = true →
      ∀ e ∈ samples, ∃ pm, List.lookup e.1 d = some pm ∧
        (imgNonNoneScores pm).isEmpty = false := by
  intro samples
  induction samples with
  | nil =>
    intro _ e he
    simp at he
  | cons s rest ih =>
    intro hok e he
    cases hlk : List.lookup s.1 d with
    | none =>
      rw [scoreDictLists_cons_none d s rest hlk] at hok
      simp [isOkE] at hok
    | some pm =>
      rw [scoreDictLists_cons_some d s rest pm hlk] at hok
      cases hemp : (imgNonNoneScores pm).isEmpty with
      | true =>
        rw [if_pos hemp] at hok
        simp [isOkE] at hok
      | false =>
        rw [if_neg (by rw [hemp]; exact Bool.false_ne_true)] at hok
        cases hrest : scoreDictLists d rest with
        | error u =>
          rw [hrest] at hok
          simp [isOkE] at hok
        | ok triple =>
          obtain ⟨ys, rs, ms⟩ := triple
          rcases List.mem_cons.mp he with rfl | he2
          · exact ⟨pm, hlk, hemp⟩
          · exact ih (by rw [hrest]; rfl) e he2

end ScoreDictLemmas

theorem getRocImageLevel_cons (ent : ImgId × List (PatchPath × Option (List ℝ)))
    (rest : ScoreDict ℝ) (gt : List (ImgId × List PatchPath × Label)) :
    getRocImageLevel (ent :: rest) gt =
      if (imgNonNoneScores ent.2).isEmpty then .error ()
      else
        match List.lookup ent.1 gt with
        | none => .error ()
        | some v =>
          match getRocImageLevel rest gt with
          | .error _ => .error ()
          | .ok (ps, ys) =>
            .ok (rocImagePred (imgNonNoneScores ent.2) :: ps, v.2 :: ys) := by
  rw [getRocImageLevel]

theorem getRocImageLevel_ok (gt : List (ImgId × List PatchPath × Label)) :
    ∀ d : ScoreDict ℝ,
      (∀ ent ∈ d, (imgNonNoneScores ent.2).isEmpty = false ∧
        (List.lookup ent.1 gt).isSome = true) →
      isOkE (getRocImageLevel d gt) = true := by
  intro d
  induction d with
  | nil => intro _; rfl
  | cons ent rest ih =>
    intro h
    obtain ⟨hemp, hsome⟩ := h ent (List.mem_cons_self ent rest)
    rw [getRocImageLevel_cons]
    rw [if_neg (by rw [hemp]; exact Bool.false_ne_true)]
    obtain ⟨v, hv⟩ := Option.isSome_iff_exists.mp hsome
    rw [hv]
    have hrest := ih (fun e he => h e (List.mem_cons_of_mem ent he))
    cases hr : getRocImageLevel rest gt with
    | error u =>
      rw [hr] at hrest
      simp [isOkE] at hrest
    | ok pair =>
      obtain ⟨ps, ys⟩ := pair
      rfl

theorem getRocImageLevel_ok_forall (gt : List (ImgId × List PatchPath × Label)) :
    ∀ d : ScoreDict ℝ, isOkE (getRocImageLevel d gt) = true →
      ∀ ent ∈ d, (imgNonNoneScores ent.2).isEmpty = false := by
  intro d
  induction d with
  | nil =>
    intro _ ent hent
    simp at hent
  | cons ent2 rest ih =>
    intro hok ent hent
    rw [getRocImageLevel_cons] at hok
    cases hemp : (imgNonNoneScores ent2.2).isEmpty with
    | true =>
      rw [if_pos hemp] at hok
      simp [isOkE] at hok
    | false =>
      rw [if_neg (by rw [hemp]; exact Bool.false_ne_true)] at hok
      rcases List.mem_cons.mp hent with rfl | hent2
      · exact hemp
      · apply ih _ ent hent2
        cases hlk : List.lookup ent2.1 gt with
        | none =>
          rw [hlk] at hok
          simp [isOkE] at hok
        | some v =>
          rw [hlk] at hok
          cases hr : getRocImageLevel rest gt with
          | error u =>
            rw [hr] at hok
            simp [isOkE] at hok
          | ok pair =>
            rfl

/-- C8: (a) if every image of the samples dict has at least one recorded
(non-`None`) patch score, `score_dict` and `get_roc_image_level` never reach
their exception branches; (b) conversely, an image whose patch count is
smaller than the group size receives no sample of the grouped dataset, so —
with all score assignments coming from grouped-dataset samples — its score
list stays all-`None`, its filtered score list is empty, and both
aggregations reach their error branch. -/
theorem score_dict_error_branches_C8
    (samples : List (ImgId × List PatchPath × Label))
    (updates : List (ImgId × PatchPath × List ℝ)) (g : ℕ)
    (hnd : (samples.map (fun e => e.1)).Nodup) :
    ((∀ e ∈ samples,
        (scoresOf (finalScoreDict samples updates) e.1).isEmpty = false) →
      isOkE (score_dict (finalScoreDict samples updates) samples) = true ∧
      isOkE (getRocImageLevel (finalScoreDict samples updates) samples) = true) ∧
    (∀ e ∈ samples, e.2.1.length < g →
      (∀ u ∈ updates, u.1 ∈ (group_dataset samples g).map (fun s => s.1)) →
      (∀ s ∈ group_dataset samples g, s.1 ≠ e.1) ∧
      scoresOf (finalScoreDict samples updates) e.1 = [] ∧
      score_dict (finalScoreDict samples updates) samples = .error () ∧
      getRocImageLevel (finalScoreDict samples updates) samples = .error ()) := by
  have hkeys : (finalScoreDict samples updates).map (fun ent => ent.1) =
      samples.map (fun e => e.1) := keys_finalScoreDict samples updates
  constructor
  · intro hcond
    have hforall : ∀ e ∈ samples, ∃ pm,
        List.lookup e.1 (finalScoreDict samples updates) = some pm ∧
        (imgNonNoneScores pm).isEmpty = false := by
      intro e he
      have hksome : (List.lookup e.1 (finalScoreDict samples updates)).isSome = true :=
        lookup_isSome_of_mem_keys e.1 _ (by
          rw [hkeys]
          exact List.mem_map_of_mem (fun e => e.1) he)
      obtain ⟨pm, hpm⟩ := Option.isSome_iff_exists.mp hksome
      refine ⟨pm, hpm, ?_⟩
      have hc := hcond e he
      rw [scoresOf, hpm] at hc
      simpa using hc
    constructor
    · rw [score_dict, scoreDictLists_eq _ samples hforall]
      rfl
    · apply getRocImageLevel_ok
      intro ent hent
      have hkmem : ent.1 ∈ samples.map (fun e => e.1) := by
        rw [← hkeys]
        exact List.mem_map_of_mem (fun ent => ent.1) hent
      obtain ⟨e, he, heq⟩ := List.mem_map.mp hkmem
      constructor
      · have hdnd : ((finalScoreDict samples updates).map (fun ent => ent.1)).Nodup := by
          rw [hkeys]
          exact hnd
        have hlk : List.lookup ent.1 (finalScoreDict samples updates) = some ent.2 :=
          lookup_of_mem_keys_nodup _ hdnd ent hent
        have hc := hcond e he
        rw [scoresOf, heq, hlk] at hc
        simpa using hc
      · exact lookup_isSome_of_mem_keys ent.1 samples hkmem
  · intro e he hsmall hupd
    have hg0 : 0 < g := lt_of_le_of_lt (Nat.zero_le _) hsmall
    have hnosample : ∀ s ∈ group_dataset samples g, s.1 ≠ e.1 := by
      intro s hs hcontra
      rw [group_dataset] at hs
      obtain ⟨e2, he2, hs2⟩ := List.mem_flatMap.mp hs
      obtain ⟨c, hc, hceq⟩ := List.mem_map.mp hs2
      have hs1 : s.1 = e2.1 := by rw [← hceq]
      have he2e : e2 = e :=
        eq_of_mem_keys_nodup samples hnd e2 e he2 he (by rw [← hs1, hcontra])
      rw [he2e, groupEntry_small g e.2.1 hg0 hsmall] at hc
      simp at hc
    have hupdne : ∀ u ∈ updates, u.1 ≠ e.1 := by
      intro u hu
      obtain ⟨s, hs, hseq⟩ := List.mem_map.mp (hupd u hu)
      rw [← hseq]
      exact hnosample s hs
    have hlk : List.lookup e.1 (finalScoreDict samples updates) =
        some (e.2.1.map (fun p => (p, none))) := by
      rw [finalScoreDict, lookup_foldl_no_update e.1 updates hupdne,
        lookup_mkImgSamplesScoreDict samples e he hnd]
    have hscores : scoresOf (finalScoreDict samples updates) e.1 = [] := by
      rw [scoresOf, hlk]
      simpa using imgNonNoneScores_mk e.2.1
    refine ⟨hnosample, hscores, ?_, ?_⟩
    · apply exceptUnit_error_of_not_ok
      cases hok : isOkE (score_dict (finalScoreDict samples updates) samples) with
      | false => rfl
      | true =>
        have hok2 : isOkE (scoreDictLists (finalScoreDict samples updates) samples) = true := by
          rw [score_dict] at hok
          cases hsl : scoreDictLists (finalScoreDict samples updates) samples with
          | error u =>
            rw [hsl] at hok
            simp [isOkE] at hok
          | ok triple => rfl
        obtain ⟨pm, hpm, hne⟩ :=
          scoreDictLists_ok_forall (finalScoreDict samples updates) samples hok2 e he
        rw [hlk] at hpm
        injection hpm with hpm2
        rw [← hpm2, imgNonNoneScores_mk] at hne
        simp at hne
    · apply exceptUnit_error_of_not_ok
      cases hok : isOkE (getRocImageLevel (finalScoreDict samples updates) samples) with
      | false => rfl
      | true =>
        have hmem := mem_of_lookup_eq_some e.1 _ _ hlk
        have hne := getRocImageLevel_ok_forall samples
          (finalScoreDict samples updates) hok
          (e.1, e.2.1.map (fun p => (p, none))) hmem
        rw [imgNonNoneScores_mk] at hne
        simp at hne

/-- Concrete samples dict for the C8 witness: `i1` has one patch (fewer than
the group size 2), `i2` has two. -/
def c8Samples : List (ImgId × List PatchPath × Label) :=
  [("i1", ["p1"], 0), ("i2", ["q1", "q2"], 1)]

/-- Concrete updates for the C8 witness: scores arrive only for `i2`'s
patches, as produced by the grouped dataset with group size 2. -/
def c8Updates : List (ImgId × PatchPath × List ℝ) :=
  [("i2", "q1", [0]), ("i2", "q2", [1])]

/-- Witness for C8 at the concrete dicts. -/
theorem score_dict_error_branches_C8_witness :
    (c8Samples.map (fun e => e.1)).Nodup ∧
    (((∀ e ∈ c8Samples,
        (scoresOf (finalScoreDict c8Samples c8Updates) e.1).isEmpty = false) →
      isOkE (score_dict (finalScoreDict c8Samples c8Updates) c8Samples) = true ∧
      isOkE (getRocImageLevel (finalScoreDict c8Samples c8Updates) c8Samples) = true) ∧
    (∀ e ∈ c8Samples, e.2.1.length < 2 →
      (∀ u ∈ c8Updates, u.1 ∈ (group_dataset c8Samples 2).map (fun s => s.1)) →
      (∀ s ∈ group_dataset c8Samples 2, s.1 ≠ e.1) ∧
      scoresOf (finalScoreDict c8Samples c8Updates) e.1 = [] ∧
      score_dict (finalScoreDict c8Samples c8Updates) c8Samples = .error () ∧
      getRocImageLevel (finalScoreDict c8Samples c8Updates) c8Samples = .error ())) :=
  ⟨by decide, score_dict_error_branches_C8 c8Samples c8Updates 2 (by decide)⟩

/-- Model of `np.linspace(a, b, n)` (default `endpoint=True`): `n` evenly spaced
values from `a` to `b`. -/
noncomputable def linspace (a b : ℝ) (n : ℕ) : List ℝ :=
  (List.range n).map (fun j : ℕ => a + (b - a) * (j : ℝ) / ((n : ℝ) - 1))

/-- Model of `np.interp(x, xp, fp)` at a single point, for increasing `xp`:
clamp to `fp[0]` on the left and `fp[-1]` on the right, linear in between. -/
noncomputable def interpPoint (x : ℝ) : List (ℝ × ℝ) → ℝ
  | [] => 0
  | [(_, y0)] => y0
  | (x0, y0) :: (x1, y1) :: rest =>
    if x ≤ x0 then y0
    else if x ≤ x1 then y0 + (y1 - y0) * (x - x0) / (x1 - x0)
    else interpPoint x ((x1, y1) :: rest)

/-- Model of `np.interp(xs, xp, fp)` on a whole grid. -/
noncomputable def npInterp (xs xp fp : List ℝ) : List ℝ :=
  xs.map (fun x => interpPoint x (xp.zip fp))

/-- Model of `np.mean` of a 1-d array. -/
noncomputable def meanList (l : List ℝ) : ℝ := l.sum / l.length

/-- Model of `np.std` of a 1-d array (the numpy default `ddof=0`, population std). -/
noncomputable def stdList (l : List ℝ) : ℝ :=
  Real.sqrt ((l.map (fun x => (x - meanList l) ^ 2)).sum / l.length)

/-- Model of `np.mean(rows, axis=0)` on a rectangular array given as a list of rows. -/
noncomputable def npMeanAxis0 (rows : List (List ℝ)) : List ℝ :=
  (List.range (rows.headD []).length).map
    (fun j => meanList (rows.map (fun r => r.getD j 0)))

/-- Model of `np.std(rows, axis=0)` on a rectangular array given as a list of rows. -/
noncomputable def npStdAxis0 (rows : List (List ℝ)) : List ℝ :=
  (List.range (rows.headD []).length).map
    (fun j => stdList (rows.map (fun r => r.getD j 0)))

/-- The checkpoint-aggregation block at the end of `make_roc_main`:
`interp_space = np.linspace(0, 1, 100)`, the per-checkpoint
`np.interp(interp_space, fpr, tpr)` curves, their pointwise `np.mean` and
`np.std`, and `np.mean` / `np.std` of the scalar AUCs (the same code runs
for the sample-level and the image-level curves). -/
noncomputable def rocBandStats (curves : List (List ℝ × List ℝ)) (aucs : List ℝ) :
    List ℝ × List (List ℝ) × List ℝ × List ℝ × ℝ × ℝ :=
  let interp_space := linspace 0 1 100
  let all_interp := curves.map (fun c => npInterp interp_space c.1 c.2)
  (interp_space, all_interp, npMeanAxis0 all_interp, npStdAxis0 all_interp,
    meanList aucs, stdList aucs)

theorem linspace_eq : linspace 0 1 100 = (List.range 100).map (fun j : ℕ => (j : ℝ) / 99) := by
  rw [linspace]
  apply List.map_congr_left
  intro j _
  norm_num

theorem getD_map_of_lt (h : ℝ → ℝ) (l : List ℝ) (j : ℕ) (hj : j < l.length) :
    (l.map h).getD j 0 = h (l.getD j 0) := by
  rw [List.getD_eq_getElem?_getD, List.getD_eq_getElem?_getD, List.getElem?_map,
    List.getElem?_eq_getElem hj]
  rfl

theorem grid_getD (j : ℕ) (hj : j < 100) :
    (linspace 0 1 100).getD j 0 = (j : ℝ) / 99 := by
  rw [linspace, List.getD_eq_getElem?_getD, List.getElem?_map,
    List.getElem?_range hj]
  simp only [Option.map_some', Option.getD_some]
  norm_num

theorem linspace_length : (linspace 0 1 100).length = 100 := by
  rw [linspace, List.length_map, List.length_range]

/-- C5: for a model family evaluated over `k ≥ 1` checkpoints, the reported
grid is `np.linspace(0, 1, 100)` (100 evenly spaced FPR values from 0 to 1),
each checkpoint TPR curve is interpolated with `np.interp` onto that same
grid, the reported mean curve is the pointwise mean and the band half-width
the pointwise (population) std of the `k` interpolated curves, and the
reported AUC mean/std are the mean and std of the `k` scalar AUCs. -/
theorem roc_band_stats_C5 (curves : List (List ℝ × List ℝ)) (aucs : List ℝ)
    (hk : 0 < curves.length) :
    (rocBandStats curves aucs).1 =
      (List.range 100).map (fun j : ℕ => (j : ℝ) / 99) ∧
    (rocBandStats curves aucs).2.1 =
      curves.map (fun c => ((List.range 100).map (fun j : ℕ => (j : ℝ) / 99)).map
        (fun x => interpPoint x (c.1.zip c.2))) ∧
    (rocBandStats curves aucs).2.2.1 = (List.range 100).map (fun j : ℕ =>
      (curves.map (fun c => interpPoint ((j : ℝ) / 99) (c.1.zip c.2))).sum /
        (curves.length : ℝ)) ∧
    (rocBandStats curves aucs).2.2.2.1 = (List.range 100).map (fun j : ℕ =>
      Real.sqrt
        (((curves.map (fun c => interpPoint ((j : ℝ) / 99) (c.1.zip c.2))).map
          (fun x => (x -
            (curves.map (fun c => interpPoint ((j : ℝ) / 99) (c.1.zip c.2))).sum /
              (curves.length : ℝ)) ^ 2)).sum / (curves.length : ℝ))) ∧
    (rocBandStats curves aucs).2.2.2.2.1 = aucs.sum / (aucs.length : ℝ) ∧
    (rocBandStats curves aucs).2.2.2.2.2 =
      Real.sqrt ((aucs.map
        (fun a => (a - aucs.sum / (aucs.length : ℝ)) ^ 2)).sum /
          (aucs.length : ℝ)) := by
  have hW : ((curves.map (fun c => npInterp (linspace 0 1 100) c.1 c.2)).headD []).length
      = 100 := by
    obtain ⟨c0, cs, rfl⟩ :=
      List.exists_cons_of_ne_nil (List.length_pos.mp hk)
    rw [List.map_cons, List.headD_cons, npInterp, List.length_map, linspace_length]
  have hcol : ∀ j : ℕ, j < 100 →
      (curves.map (fun c => npInterp (linspace 0 1 100) c.1 c.2)).map
        (fun r => r.getD j 0) =
      curves.map (fun c => interpPoint ((j : ℝ) / 99) (c.1.zip c.2)) := by
    intro j hj
    rw [List.map_map]
    apply List.map_congr_left
    intro c _
    simp only [Function.comp_apply, npInterp]
    rw [getD_map_of_lt _ _ j (by rw [linspace_length]; exact hj), grid_getD j hj]
  refine ⟨linspace_eq, ?_, ?_, ?_, rfl, rfl⟩
  · show curves.map (fun c => npInterp (linspace 0 1 100) c.1 c.2) = _
    apply List.map_congr_left
    intro c _
    rw [npInterp, linspace_eq]
  · show npMeanAxis0 (curves.map (fun c => npInterp (linspace 0 1 100) c.1 c.2)) = _
    rw [npMeanAxis0, hW]
    apply List.map_congr_left
    intro j hj
    rw [List.mem_range] at hj
    rw [hcol j hj, meanList, List.length_map]
  · show npStdAxis0 (curves.map (fun c => npInterp (linspace 0 1 100) c.1 c.2)) = _
    rw [npStdAxis0, hW]
    apply List.map_congr_left
    intro j hj
    rw [List.mem_range] at hj
    rw [hcol j hj, stdList, meanList, List.length_map]

/-- Witness for C5 at one concrete checkpoint curve. -/
theorem roc_band_stats_C5_witness :
    0 < ([(([0, 1] : List ℝ), ([0, 1] : List ℝ))] : List (List ℝ × List ℝ)).length ∧
    (rocBandStats [(([0, 1] : List ℝ), ([0, 1] : List ℝ))] [(1 : ℝ) / 2]).2.2.2.2.1 =
      ([(1 : ℝ) / 2] : List ℝ).sum / (([(1 : ℝ) / 2] : List ℝ).length : ℝ) :=
  ⟨by norm_num,
    (roc_band_stats_C5 [(([0, 1] : List ℝ), ([0, 1] : List ℝ))] [(1 : ℝ) / 2]
      (by norm_num)).2.2.2.2.1⟩

/-- The stages of the experiment scripts, as abstract events. -/
inductive ScriptEvent where
  | parseArgs : ScriptEvent
  | constructModelData : ScriptEvent
  | scanDatasetFolders : ScriptEvent
  | trainLoopCall : ScriptEvent
  | computePreds : ℕ → ℕ → ScriptEvent
  | computeRocStats : ℕ → ℕ → ScriptEvent
  | plotSampleLevel : ScriptEvent
  | plotImageLevel : ScriptEvent
deriving DecidableEq

/-- One checkpoint iteration of the inner loop of `make_roc_main`:
`dm.prepare_data()/dm.setup()` (the dataset folder scan), `get_preds` with
`fill_dict`, then the sample- and image-level ROC statistics. -/
def perCheckpointEvents (f i : ℕ) : List ScriptEvent :=
  [ScriptEvent.scanDatasetFolders, ScriptEvent.computePreds f i,
    ScriptEvent.computeRocStats f i]

/-- Everything `make_ROC_1outneuron.py` does before its first plotting call:
argument parsing and model/data construction at module level, then the
nested loops of `make_roc_main` over `nf` model families and `nc`
checkpoints each. -/
def rocFront (nf nc : ℕ) : List ScriptEvent :=
  ScriptEvent.parseArgs :: ScriptEvent.constructModelData ::
    ((List.range nf).flatMap (fun f => (List.range nc).flatMap
      (fun i => perCheckpointEvents f i)))

/-- The event trace of `make_ROC_1outneuron.py`: all per-checkpoint work,
then the two plotting calls (`make_plot_matplotlib_sample_level`,
`make_plot_matplotlib_image_level`) at the very end of `make_roc_main`. -/
def rocScriptTrace (nf nc : ℕ) : List ScriptEvent :=
  rocFront nf nc ++ [ScriptEvent.plotSampleLevel, ScriptEvent.plotImageLevel]

/-- The event trace of `resnet_experiment.py`: argument parsing, model and
datamodule construction, then `trainer.fit` — which runs the dataset folder
scan (`PatchDataModule.setup`) before the training loop. -/
def resnetScriptTrace : List ScriptEvent :=
  [ScriptEvent.parseArgs, ScriptEvent.constructModelData,
    ScriptEvent.scanDatasetFolders, ScriptEvent.trainLoopCall]

/-- Per-checkpoint prediction or ROC-statistic computation. -/
def isComputeEvent : ScriptEvent → Bool
  | .computePreds _ _ => true
  | .computeRocStats _ _ => true
  | _ => false

/-- A plotting call. -/
def isPlotEvent : ScriptEvent → Bool
  | .plotSampleLevel => true
  | .plotImageLevel => true
  | _ => false

theorem no_plot_in_rocFront (nf nc : ℕ) :
    ∀ e ∈ rocFront nf nc, isPlotEvent e = false := by
  intro e he
  rw [rocFront] at he
  rcases List.mem_cons.mp he with rfl | he
  · rfl
  rcases List.mem_cons.mp he with rfl | he
  · rfl
  obtain ⟨f, _, he2⟩ := List.mem_flatMap.mp he
  obtain ⟨i, _, he3⟩ := List.mem_flatMap.mp he2
  rw [perCheckpointEvents] at he3
  rcases List.mem_cons.mp he3 with rfl | he3
  · rfl
  rcases List.mem_cons.mp he3 with rfl | he3
  · rfl
  rcases List.mem_cons.mp he3 with rfl | he3
  · rfl
  simp at he3

theorem no_parse_scan_in_plots :
    ∀ e ∈ [ScriptEvent.plotSampleLevel, ScriptEvent.plotImageLevel],
      isComputeEvent e = false ∧ e ≠ ScriptEvent.parseArgs ∧
      e ≠ ScriptEvent.scanDatasetFolders := by
  decide

/-- C7: the scripts run their stages strictly in sequence.  In the ROC
script, every per-checkpoint prediction / ROC-statistic computation happens
strictly before every plotting call, argument parsing happens only at
position 0, and every dataset folder scan comes after parsing and
construction; in `resnet_experiment.py`, parsing precedes the dataset scan
and model/data construction precedes the training-loop call. -/
theorem script_stage_order_C7 :
    (∀ nf nc i j (hi : i < (rocScriptTrace nf nc).length)
        (hj : j < (rocScriptTrace nf nc).length),
      isComputeEvent ((rocScriptTrace nf nc).get ⟨i, hi⟩) = true →
      isPlotEvent ((rocScriptTrace nf nc).get ⟨j, hj⟩) = true → i < j) ∧
    (∀ nf nc j (hj : j < (rocScriptTrace nf nc).length),
      (rocScriptTrace nf nc).get ⟨j, hj⟩ = ScriptEvent.parseArgs → j = 0) ∧
    (∀ nf nc j (hj : j < (rocScriptTrace nf nc).length),
      (rocScriptTrace nf nc).get ⟨j, hj⟩ = ScriptEvent.scanDatasetFolders → 2 ≤ j) ∧
    (resnetScriptTrace.indexOf ScriptEvent.parseArgs <
      resnetScriptTrace.indexOf ScriptEvent.scanDatasetFolders ∧
     resnetScriptTrace.indexOf ScriptEvent.constructModelData <
      resnetScriptTrace.indexOf ScriptEvent.trainLoopCall) := by
  refine ⟨?_, ?_, ?_, by decide⟩
  · intro nf nc i j hi hj hci hpj
    have hget : ∀ m (hm : m < (rocScriptTrace nf nc).length),
        (rocScriptTrace nf nc)[m]? =
          some ((rocScriptTrace nf nc).get ⟨m, hm⟩) := by
      intro m hm
      rw [List.getElem?_eq_getElem hm, List.get_eq_getElem]
    have htr : rocScriptTrace nf nc = rocFront nf nc ++
        [ScriptEvent.plotSampleLevel, ScriptEvent.plotImageLevel] := rfl
    have hjge : (rocFront nf nc).length ≤ j := by
      by_contra hjlt
      push_neg at hjlt
      obtain ⟨v, hv, hveq⟩ : ∃ v, (rocScriptTrace nf nc)[j]? = some v ∧
          isPlotEvent v = true := ⟨_, hget j hj, hpj⟩
      rw [htr, List.getElem?_append_left hjlt] at hv
      have hfalse := no_plot_in_rocFront nf nc _ (List.getElem?_mem hv)
      rw [hfalse] at hveq
      exact Bool.false_ne_true hveq
    have hilt : i < (rocFront nf nc).length := by
      by_contra hige
      push_neg at hige
      obtain ⟨v, hv, hveq⟩ : ∃ v, (rocScriptTrace nf nc)[i]? = some v ∧
          isComputeEvent v = true := ⟨_, hget i hi, hci⟩
      rw [htr, List.getElem?_append_right hige] at hv
      have hfalse := (no_parse_scan_in_plots _ (List.getElem?_mem hv)).1
      rw [hfalse] at hveq
      exact Bool.false_ne_true hveq
    omega
  · intro nf nc j hj hparse
    cases j with
    | zero => rfl
    | succ j2 =>
      exfalso
      have hget : (rocScriptTrace nf nc)[j2 + 1]? =
          some ((rocScriptTrace nf nc).get ⟨j2 + 1, hj⟩) := by
        rw [List.getElem?_eq_getElem hj, List.get_eq_getElem]
      rw [hparse] at hget
      have htl : rocScriptTrace nf nc = ScriptEvent.parseArgs ::
          (ScriptEvent.constructModelData ::
            ((List.range nf).flatMap (fun f => (List.range nc).flatMap
              (fun i => perCheckpointEvents f i))) ++
            [ScriptEvent.plotSampleLevel, ScriptEvent.plotImageLevel]) := rfl
      rw [htl, List.getElem?_cons_succ] at hget
      have hmem := List.getElem?_mem hget
      rw [List.cons_append, List.mem_cons] at hmem
      rcases hmem with hmem | hmem
      · exact ScriptEvent.noConfusion hmem
      rw [List.mem_append] at hmem
      rcases hmem with hmem | hmem
      · obtain ⟨f, _, h3⟩ := List.mem_flatMap.mp hmem
        obtain ⟨i, _, h4⟩ := List.mem_flatMap.mp h3
        rw [perCheckpointEvents] at h4
        simp at h4
      · simp at hmem
  · intro nf nc j hj hscan
    match j with
    | 0 =>
      exfalso
      have : (rocScriptTrace nf nc).get ⟨0, hj⟩ = ScriptEvent.parseArgs := rfl
      rw [this] at hscan
      exact ScriptEvent.noConfusion hscan
    | 1 =>
      exfalso
      have : (rocScriptTrace nf nc).get ⟨1, hj⟩ = ScriptEvent.constructModelData := rfl
      rw [this] at hscan
      exact ScriptEvent.noConfusion hscan
    | (j2 + 2) => omega

/-- Witness for C7: in the concrete one-family one-checkpoint trace, the
prediction computation (position 3) precedes the first plot (position 5). -/
theorem script_stage_order_C7_witness :
    3 < (rocScriptTrace 1 1).length ∧ 5 < (rocScriptTrace 1 1).length ∧ 3 < 5 := by
  have h3 : 3 < (rocScriptTrace 1 1).length := by decide
  have h5 : 5 < (rocScriptTrace 1 1).length := by decide
  exact ⟨h3, h5, script_stage_order_C7.1 1 1 3 5 h3 h5 rfl rfl⟩

/-- Python's `p.split(",")`: split the string at every comma, keeping empty
pieces. -/
def splitComma (s : String) : List String :=
  (s.toList.splitOn ',').map (fun cs => String.mk cs)

/-- The batch expansion of `PatientLevelValidation.on_train_batch_end` /
`on_validation_batch_end` (and of `get_preds` in `make_ROC_1outneuron.py`):
for `group_size > 1` split each comma-joined path string and flatten, and
`repeat_interleave` ids, targets and outputs `group_size` times; for
`group_size == 1` the code runs `img_paths = list(img_paths[0])`, i.e. the
list of the *characters of the first path string*; otherwise the batch is
left unchanged.  The four components are
`(img_id, img_paths, y, batch_outputs)`. -/
def expandBatch (group_size : ℕ) (img_id : List ImgId) (img_paths : List String)
    (y : List Label) (outs : List (List ℚ)) :
    List ImgId × List String × List Label × List (List ℚ) :=
  if 1 < group_size then
    (img_id.flatMap (fun v => List.replicate group_size v),
     (img_paths.map (fun p => splitComma p)).flatten,
     y.flatMap (fun v => List.replicate group_size v),
     outs.flatMap (fun v => List.replicate group_size v))
  else if group_size = 1 then
    (img_id, (img_paths.headD "").toList.map (fun c => String.singleton c), y, outs)
  else (img_id, img_paths, y, outs)

/-- The length-equality assertion of `PatientLevelValidation.update_dicts`:
`len(batch_paths) == len(batch_scores) and len(batch_scores) ==
len(batch_targets) and len(batch_img_ids) == len(batch_paths)`. -/
def updateDictsAssert (ids : List ImgId) (paths : List String)
    (scores : List (List ℚ)) (targets : List Label) : Bool :=
  (paths.length == scores.length) && (scores.length == targets.length) &&
    (ids.length == paths.length)

/-- C9 evaluated on the code: for `group_size = 1` and the batch
`img_id = ("id1","id2")`, `img_paths = ("abc","de")`, `y = (0,1)`,
`batch_outputs = [[0],[1]]` (a perfectly well-formed grouped batch of
`b = 2` samples with one path per sample), the expansion turns `img_paths`
into the three characters of the first path, so the four sequences have
lengths `2, 3, 2, 2` and the `update_dicts` assertion fails; whereas for
`group_size = 2` on a well-formed batch the expansion is balanced and the
assertion holds. -/
theorem batch_expansion_assert_C9 :
    (expandBatch 1 ["id1", "id2"] ["abc", "de"] [0, 1] [[0], [1]]).2.1 =
      ["a", "b", "c"] ∧
    (expandBatch 1 ["id1", "id2"] ["abc", "de"] [0, 1] [[0], [1]]).1.length = 2 ∧
    (expandBatch 1 ["id1", "id2"] ["abc", "de"] [0, 1] [[0], [1]]).2.1.length = 3 ∧
    (expandBatch 1 ["id1", "id2"] ["abc", "de"] [0, 1] [[0], [1]]).2.2.2.length = 2 ∧
    (updateDictsAssert
      (expandBatch 1 ["id1", "id2"] ["abc", "de"] [0, 1] [[0], [1]]).1
      (expandBatch 1 ["id1", "id2"] ["abc", "de"] [0, 1] [[0], [1]]).2.1
      (expandBatch 1 ["id1", "id2"] ["abc", "de"] [0, 1] [[0], [1]]).2.2.2
      (expandBatch 1 ["id1", "id2"] ["abc", "de"] [0, 1] [[0], [1]]).2.2.1) = false ∧
    (updateDictsAssert
      (expandBatch 2 ["id1", "id2"] ["a,b", "c,d"] [0, 1] [[0], [1]]).1
      (expandBatch 2 ["id1", "id2"] ["a,b", "c,d"] [0, 1] [[0], [1]]).2.1
      (expandBatch 2 ["id1", "id2"] ["a,b", "c,d"] [0, 1] [[0], [1]]).2.2.2
      (expandBatch 2 ["id1", "id2"] ["a,b", "c,d"] [0, 1] [[0], [1]]).2.2.1) = true := by
  decide
